import Mathlib

/-!
Shallow embedding of `src/macro_dashboard.py`: a Streamlit dashboard that
fetches three FRED series, resamples them to a monthly calendar, computes a
CPI year-over-year series, outer-joins everything into one panel, optionally
smooths a display copy, and renders KPI cards plus an Excel export.

Modelling conventions:
* A pandas cell is `Option ℚ` (`none` is NaN); float values are modelled as
  rationals, so binary rounding and infinities are out of scope (pandas
  would produce an infinity on a zero denominator; no claim involves one).
* A Series / one-column DataFrame with a DatetimeIndex is a
  `List (Date × Option ℚ)` in index order.
* Embedded pandas semantics (pandas 2.x): `resample("M").last()` and
  `.mean()` emit one row per calendar month from the first to the last
  month of the index, labelled with the month-end date, and skip NaN inside
  each bin; `Series.pct_change(12)` forward-fills NaN first (its default
  `fill_method="pad"`) and then computes `x / x.shift(12) - 1`;
  `pd.infer_freq` raises `ValueError` on fewer than 3 dates and returns
  "M" / "MS" exactly for consecutive month-end / month-start dates;
  `rolling(3).mean()` needs 3 non-NaN values in the trailing window
  (`min_periods` defaults to the window size); `DataFrame.dropna()` drops
  rows with any NaN and `dropna(how="all")` rows with only NaN;
  `pd.concat(axis=1)` outer-joins on the index (sorted union, aligned
  columns, NaN where a frame lacks the label).
-/

/-- Calendar date; chronological order on valid dates is the order of `Date.key`. -/
structure Date where
  y : Nat
  m : Nat
  d : Nat
  deriving DecidableEq, Repr

/-- Chronological sort key: lexicographic year, month, day. -/
def Date.key (dt : Date) : Nat := dt.y * 10000 + dt.m * 100 + dt.d

/-- Gregorian leap-year test. -/
def isLeapYear (y : Nat) : Bool := (y % 4 == 0 && y % 100 != 0) || y % 400 == 0

/-- Number of days in a calendar month. -/
def daysInMonth (y m : Nat) : Nat :=
  if m == 2 then (if isLeapYear y then 29 else 28)
  else if m == 4 || m == 6 || m == 9 || m == 11 then 30
  else 31

/-- Month-end marker, the label `resample("M")` gives a month's bin. -/
def monthEnd (y m : Nat) : Date := ⟨y, m, daysInMonth y m⟩

/-- Serial month number of a date: `year * 12 + (month - 1)`. -/
def monthIdx (dt : Date) : Nat := dt.y * 12 + (dt.m - 1)

/-- Month-end date of a serial month number. -/
def monthEndOfIdx (k : Nat) : Date := monthEnd (k / 12) (k % 12 + 1)

/-- Month-start date of a serial month number. -/
def monthStartOfIdx (k : Nat) : Date := ⟨k / 12, k % 12 + 1, 1⟩

/-- Valid calendar date, enough to make `Date.key` injective. -/
def validDate (dt : Date) : Bool :=
  decide (1 ≤ dt.m) && decide (dt.m ≤ 12) && decide (1 ≤ dt.d) && decide (dt.d ≤ 31)

/-- A pandas Series (or one-column DataFrame) with a DatetimeIndex. -/
abbrev Series := List (Date × Option ℚ)

/-- One observation as it stands after `fetch_fred`'s parsing: the date
already a timestamp and the value after `pd.to_numeric(..., errors="coerce")`
(a non-numeric payload string has become `none`). -/
abbrev RawObs := Date × Option ℚ

/-- Strictly ascending date keys: a sorted index with no duplicate dates. -/
def sortedKeysB {α : Type} : List (Date × α) → Bool
  | [] => true
  | [_] => true
  | a :: b :: rest => decide (a.1.key < b.1.key) && sortedKeysB (b :: rest)

/-- The `df.set_index("date").sort_index()` step of `fetch_fred`. -/
def sortByDate (l : List RawObs) : Series :=
  List.insertionSort (fun a b => a.1.key ≤ b.1.key) l

/-- Embedding of `fetch_fred` after the HTTP layer (src lines 59 to 66): an
empty observation list yields an empty frame, otherwise the observations are
indexed by date and sorted ascending. -/
def fetch_fred (obs : List RawObs) : Series :=
  if obs.isEmpty then [] else sortByDate obs

/-- Serial month numbers present in a series' index. -/
def monthsOf (s : Series) : List Nat := s.map (fun p => monthIdx p.1)

/-- Observations of a series falling in serial month `k`, in index order. -/
def obsInMonth (s : Series) (k : Nat) : Series := s.filter (fun p => monthIdx p.1 == k)

/-- Bin value of `resample("M").last()` for month `k`: the last non-NaN value
of the bin (pandas `last` skips NaN), or NaN when the bin has none. -/
def lastValid (s : Series) (k : Nat) : Option ℚ :=
  ((obsInMonth s k).filterMap (fun p => p.2)).getLast?

/-- Bin value of `resample("M").mean()` for month `k`: the arithmetic mean of
the non-NaN values of the bin, or NaN when the bin has none. -/
def meanValid (s : Series) (k : Nat) : Option ℚ :=
  let vs := (obsInMonth s k).filterMap (fun p => p.2)
  if vs.isEmpty then none else some (vs.sum / vs.length)

/-- First and last serial month of a nonempty index. -/
def monthSpan : Series → Option (Nat × Nat)
  | [] => none
  | p :: rest =>
    some ((monthsOf rest).foldl min (monthIdx p.1), (monthsOf rest).foldl max (monthIdx p.1))

/-- Common shape of a monthly resample: one row per calendar month from the
first to the last month of the index, labelled with the month-end date. -/
def resampleWith (agg : Series → Nat → Option ℚ) (s : Series) : Series :=
  match monthSpan s with
  | none => []
  | some (a, b) =>
    (List.range (b + 1 - a)).map (fun i => (monthEndOfIdx (a + i), agg s (a + i)))

/-- Embedding of `monthlyize` (src lines 69 to 74). -/
def monthlyize (df : Series) (how : String) : Series :=
  if df.isEmpty then df
  else if how = "mean" then resampleWith meanValid df
  else resampleWith lastValid df

/-- Forward fill (`fillna(method="pad")`), threading the last seen value. -/
def ffillFrom (acc : Option ℚ) : List (Option ℚ) → List (Option ℚ)
  | [] => []
  | none :: rest => acc :: ffillFrom acc rest
  | some v :: rest => some v :: ffillFrom (some v) rest

/-- Forward fill of a value list. -/
def ffill (l : List (Option ℚ)) : List (Option ℚ) := ffillFrom none l

/-- Embedding of `Series.pct_change(12) * 100` under pandas' default
`fill_method="pad"`: NaNs are forward-filled into `f`, and entry `i` is
`(f[i] / f[i-12] - 1) * 100`, NaN for `i < 12` or when a NaN survives the
fill at either position. -/
def pctChange12Times100 (s : Series) : Series :=
  let f := ffill (s.map (fun p => p.2))
  s.enum.map (fun q =>
    (q.2.1,
      if q.1 < 12 then none
      else
        match f.getD (q.1 - 12) none, f.getD q.1 none with
        | some b, some a => some ((a / b - 1) * 100)
        | _, _ => none))

/-- The dates form the consecutive run `f k0, f (k0 + 1), ...` where `k0` is
the serial month of the first date. -/
def consecBy (f : Nat → Date) (ds : List Date) : Bool :=
  match ds with
  | [] => true
  | d0 :: _ => decide (ds = (List.range ds.length).map (fun i => f (monthIdx d0 + i)))

/-- Whether `pd.infer_freq` returns "M" or "MS" for this index: at least 3
dates forming consecutive month ends ("M") or consecutive month starts
("MS"). -/
def inferFreqIsMonthly (ds : List Date) : Bool :=
  if ds.length < 3 then false
  else consecBy monthEndOfIdx ds || consecBy monthStartOfIdx ds

/-- Embedding of `cpi_yoy_from_index` (src lines 77 to 84). `pd.infer_freq`
raises `ValueError` on a nonempty index with fewer than 3 dates, modelled as
`Except.error`; when the inferred frequency is neither "M" nor "MS" the frame
is first resampled with `resample("M").last()`. -/
def cpi_yoy_from_index (cpi_idx : Series) : Except String Series :=
  if cpi_idx.isEmpty then .ok []
  else if cpi_idx.length < 3 then .error "infer_freq needs at least 3 dates"
  else
    let s := if inferFreqIsMonthly (cpi_idx.map (fun p => p.1)) then cpi_idx
             else resampleWith lastValid cpi_idx
    .ok (pctChange12Times100 s)

/-- A Monthly Series in the spec's sense: the index is a run of consecutive
month-end dates, one observation per calendar month in range. -/
def isMonthlySeries (s : Series) : Bool := consecBy monthEndOfIdx (s.map (fun p => p.1))

/-- A pandas DataFrame: dated rows of per-column optional values. -/
abbrev Panel := List (Date × List (Option ℚ))

/-- Insert a date into a key-sorted list, dropping it when its key is already
present (how a `DatetimeIndex` union treats a repeated label). -/
def insertDate (dt : Date) : List Date → List Date
  | [] => [dt]
  | e :: es =>
    if dt.key < e.key then dt :: e :: es
    else if dt.key = e.key then e :: es
    else e :: insertDate dt es

/-- Sorted, duplicate-free (by key) union of a list of dates. -/
def sortedUnion (ds : List Date) : List Date := ds.foldr insertDate []

/-- All index dates of a list of series, concatenated. -/
def allDates (cols : List Series) : List Date :=
  cols.foldr (fun s acc => s.map (fun p => p.1) ++ acc) []

/-- Value of a series at a date key; a label the series lacks aligns to NaN. -/
def lookupVal (s : Series) (k : Nat) : Option ℚ :=
  match s.find? (fun p => p.1.key == k) with
  | some p => p.2
  | none => none

/-- Aligned row of all columns at a date key. -/
def rowAt (cols : List Series) (k : Nat) : List (Option ℚ) :=
  cols.map (fun s => lookupVal s k)

/-- Embedding of `pd.concat([...], axis=1)` followed by `dropna(how="all")`
(src lines 118 to 119): full outer join on the date index, then drop the rows
in which every column is NaN. -/
def panelAssemble (cols : List Series) : Panel :=
  ((sortedUnion (allDates cols)).map (fun dt => (dt, rowAt cols dt.key))).filter
    (fun r => r.2.any (fun v => v.isSome))

/-- Cell of a panel at row `i`, column `j` (NaN outside the frame). -/
def cellAt (p : Panel) (i j : Nat) : Option ℚ :=
  match p.get? i with
  | some r => r.2.getD j none
  | none => none

/-- Value `rolling(3).mean()` gives row `i` of column `j`: the mean of rows
`i-2`, `i-1`, `i` when all three exist and are non-NaN, NaN otherwise. -/
def rolling3At (p : Panel) (i j : Nat) : Option ℚ :=
  if i < 2 then none
  else
    match cellAt p (i - 2) j, cellAt p (i - 1) j, cellAt p i j with
    | some a, some b, some c => some ((a + b + c) / 3)
    | _, _, _ => none

/-- Column-by-column trailing 3-row mean, the loop of src lines 124 to 125. -/
def smoothPanel (p : Panel) : Panel :=
  p.enum.map (fun q => (q.2.1, (List.range q.2.2.length).map (fun j => rolling3At p q.1 j)))

/-- Embedding of src lines 122 to 125: the display copy of the panel,
smoothed only when the sidebar checkbox is set. -/
def displayOf (p : Panel) (smooth_ma : Bool) : Panel :=
  if smooth_ma then smoothPanel p else p

/-- Row in which every column is present (`dropna()` keeps exactly these). -/
def rowFull (r : List (Option ℚ)) : Bool := r.all (fun v => v.isSome)

/-- Embedding of `panel.dropna()` (src line 128). -/
def dropnaAny (p : Panel) : Panel := p.filter (fun r => rowFull r.2)

/-- Embedding of `latest.iloc[-1]` over `panel.dropna()`: the last fully
present row, or `none` when there is none. -/
def latestFull (p : Panel) : Option (Date × List (Option ℚ)) := (dropnaAny p).getLast?

/-- Round to the nearest integer, ties to even, as Python's fixed-point
formatting rounds exact halves. -/
def roundHalfEven (q : ℚ) : ℤ :=
  let f := ⌊q⌋
  if q - f < 1 / 2 then f
  else if 1 / 2 < q - f then f + 1
  else if f % 2 = 0 then f else f + 1

/-- Insert thousands separators into a digit list given least-significant
digit first. -/
def groupRev : List Char → List Char
  | a :: b :: c :: d :: rest => a :: b :: c :: ',' :: groupRev (d :: rest)
  | l => l

/-- Integer-part digit string with `,` grouping, as Python's `,` flag. -/
def groupDigits (s : String) : String := String.mk (groupRev s.toList.reverse).reverse

/-- Two zero-padded decimal digits. -/
def twoDigits (k : Nat) : String := String.mk [Nat.digitChar (k / 10 % 10), Nat.digitChar (k % 10)]

/-- Embedding of Python's `f"{value:,.2f}"` on a rational: sign, grouped
integer part, decimal point, exactly two fractional digits. -/
def fmt2 (q : ℚ) : String :=
  let n := roundHalfEven (q * 100)
  (if n < 0 then "-" else "") ++ groupDigits (toString (n.natAbs / 100)) ++ "." ++
    twoDigits (n.natAbs % 100)

/-- Embedding of `metric_card` (src lines 87 to 91): the string a KPI card
shows — a dash placeholder for NaN, else the value to two decimals followed
by the suffix. -/
def metric_card (value : Option ℚ) (suffix : String) : String :=
  match value with
  | none => "-"
  | some v => fmt2 v ++ suffix

/-- Embedding of the KPI row (src lines 127 to 139): `none` when no panel row
is fully present (the "No data available" branch); otherwise the three card
strings, drawn from columns 1, 2, 3 (CPI_YoY, Unemployment, Real10Y) of the
last fully present row, each with suffix " %". -/
def kpiRow (p : Panel) : Option (String × String × String) :=
  match latestFull p with
  | none => none
  | some r =>
    some (metric_card (r.2.getD 1 none) " %", metric_card (r.2.getD 2 none) " %",
      metric_card (r.2.getD 3 none) " %")

/-- The three fetch payloads available to one render pass. -/
structure RawData where
  cpiObs : List RawObs
  unrateObs : List RawObs
  real10Obs : List RawObs

/-- Everything the page derives once data is fetched. -/
structure Render where
  panel : Panel
  displayPanel : Panel
  kpi : Option (String × String × String)
  exportSheets : List (String × Panel)
  deriving DecidableEq

/-- Outcome of one run of the script. -/
structure AppResult where
  halted : Bool
  warning : Option String
  crashed : Bool
  networkCalls : List String
  render : Option Render
  deriving DecidableEq

/-- Warning text of src lines 34 to 38. -/
def missingKeyMessage : String :=
  "Your app is running, but no FRED API key is set. Go to Streamlit → Settings → Secrets and add FRED_API_KEY.\n\nSee the README for instructions."

/-- One-column frame as an export sheet body. -/
def toSheet (s : Series) : Panel := s.map (fun p => (p.1, [p.2]))

/-- Embedding of one whole script run (src lines 31 to 159): the missing-key
guard (`st.stop()` fires before any request), then the sequential fetches and
the pipeline — CPI is fetched and its YoY computed before the second fetch,
so a YoY failure leaves only one network call — then the display copy, the
KPI row, and the export sheets built from the canonical (unsmoothed) panel
and the three monthly series. -/
def runApp (apiKey : String) (raw : RawData) (smooth_ma : Bool) : AppResult :=
  if apiKey = "" then
    { halted := true, warning := some missingKeyMessage, crashed := false,
      networkCalls := [], render := none }
  else
    let cpi_idx := fetch_fred raw.cpiObs
    let cpi_m := monthlyize cpi_idx "last"
    match cpi_yoy_from_index cpi_idx with
    | .error _ =>
      { halted := true, warning := none, crashed := true,
        networkCalls := ["CPIAUCSL"], render := none }
    | .ok cpi_yoy =>
      let unrate_m := monthlyize (fetch_fred raw.unrateObs) "last"
      let real10_m := monthlyize (fetch_fred raw.real10Obs) "mean"
      let p := panelAssemble [cpi_m, cpi_yoy, unrate_m, real10_m]
      { halted := false, warning := none, crashed := false,
        networkCalls := ["CPIAUCSL", "UNRATE", "DFII10"],
        render := some
          { panel := p
            displayPanel := displayOf p smooth_ma
            kpi := kpiRow p
            exportSheets := [("macro_panel", p), ("cpi_index", toSheet cpi_m),
              ("unemployment", toSheet unrate_m), ("real10y", toSheet real10_m)] } }

/-- Concrete Monthly Series (consecutive month ends from January 2020) of
length 14 whose entry at index 1 is missing: values 100, NaN, 102, ..., 113. -/
def sampleYoyInput : Series :=
  (List.range 14).map (fun i =>
    (monthEndOfIdx (2020 * 12 + i), if i = 1 then none else some ((100 + i : Nat) : ℚ)))

/-- Concrete CPI fetch payload dated at month starts, the dating FRED uses
for monthly series: 2000-01-01 to 2001-01-01 with values 100 to 112. -/
def cpiMonthStartObs : List RawObs :=
  (List.range 13).map (fun i => (monthStartOfIdx (2000 * 12 + i), some ((100 + i : Nat) : ℚ)))

/-- Render-pass input whose CPI series is month-start dated and whose other
two fetches return no observations. -/
def monthStartRaw : RawData := ⟨cpiMonthStartObs, [], []⟩

/-- Concrete series with two observations inside January 2020, the
chronologically last one missing. -/
def sampleLastInput : Series := [(⟨2020, 1, 10⟩, some 5), (⟨2020, 1, 20⟩, none)]

/-- One-column panel holding 1, 2, 3, 4, 5 on consecutive month ends. -/
def sampleSmoothInput : Panel :=
  [(monthEnd 2020 1, [some 1]), (monthEnd 2020 2, [some 2]), (monthEnd 2020 3, [some 3]),
   (monthEnd 2020 4, [some 4]), (monthEnd 2020 5, [some 5])]

/-- Expected smoothing of `sampleSmoothInput`: missing, missing, 2, 3, 4. -/
def sampleSmoothOutput : Panel :=
  [(monthEnd 2020 1, [none]), (monthEnd 2020 2, [none]), (monthEnd 2020 3, [some 2]),
   (monthEnd 2020 4, [some 3]), (monthEnd 2020 5, [some 4])]

/-- One-column panel with a missing value in the middle of the column:
1, 2, 3, NaN, 5, 6, 7 on consecutive month ends. -/
def sampleGapInput : Panel :=
  [(monthEnd 2020 1, [some 1]), (monthEnd 2020 2, [some 2]), (monthEnd 2020 3, [some 3]),
   (monthEnd 2020 4, [none]), (monthEnd 2020 5, [some 5]), (monthEnd 2020 6, [some 6]),
   (monthEnd 2020 7, [some 7])]

/-- Concrete four-column panel with a fully present row followed by a row
whose second column is missing. -/
def sampleKpiPanel : Panel :=
  [(monthEnd 2020 1, [some 1, some 2, some 3, some 4]),
   (monthEnd 2020 2, [some 5, none, some 6, some 7])]

/-- Two tiny one-observation monthly columns for instantiating the panel
assembler. -/
def samplePanelCols : List Series :=
  [[(monthEnd 2020 1, some 1)], [(monthEnd 2020 1, none), (monthEnd 2020 2, some 2)]]

/-- Render-pass input with well-formed month-end dated observations. -/
def sampleAppRaw : RawData :=
  ⟨[(monthEnd 2020 1, some 100), (monthEnd 2020 2, some 101), (monthEnd 2020 3, some 102)],
   [(monthEnd 2020 1, some 4)], [(⟨2020, 1, 7⟩, some 2), (⟨2020, 1, 21⟩, some 3)]⟩

/-- Specification of the year-over-year output for a monthly index: the
output keeps the input's dates, its first 12 entries are missing, entry
`i ≥ 12` is `(f i / f (i-12) - 1) * 100` over the forward-filled values `f`
when both are present and missing otherwise, and in particular the original
formula applies whenever the two raw entries are present. -/
def YoySpec (s : Series) : Prop :=
  ∃ out : Series, cpi_yoy_from_index s = .ok out ∧
    out.map (fun p => p.1) = s.map (fun p => p.1) ∧
    (∀ i, i < 12 → (out.map (fun p => p.2)).getD i none = none) ∧
    (∀ i, 12 ≤ i → i < s.length →
      (out.map (fun p => p.2)).getD i none =
        match (ffill (s.map (fun p => p.2))).getD (i - 12) none,
            (ffill (s.map (fun p => p.2))).getD i none with
        | some b, some a => some ((a / b - 1) * 100)
        | _, _ => none) ∧
    (∀ i a b, 12 ≤ i → (s.map (fun p => p.2)).getD i none = some a →
      (s.map (fun p => p.2)).getD (i - 12) none = some b →
      (out.map (fun p => p.2)).getD i none = some ((a / b - 1) * 100))

/-- Specification of the assembled panel: its rows are strictly sorted by
date key (so no calendar date repeats), each retained row is the aligned row
of all columns at a date drawn from the input indices with at least one
present cell, and conversely every input date whose aligned row has a
present cell is retained. -/
def PanelSpec (cols : List Series) : Prop :=
  sortedKeysB (panelAssemble cols) = true ∧
  (∀ dt r, (dt, r) ∈ panelAssemble cols →
    dt ∈ allDates cols ∧ r = rowAt cols dt.key ∧ r.any (fun v => v.isSome) = true) ∧
  (∀ dt, dt ∈ allDates cols → (rowAt cols dt.key).any (fun v => v.isSome) = true →
    (dt, rowAt cols dt.key) ∈ panelAssemble cols)

/-- Key equality on valid dates is date equality. -/
theorem date_key_inj {a b : Date} (ha : validDate a = true) (hb : validDate b = true)
    (h : a.key = b.key) : a = b := by
  rcases a with ⟨ya, ma, da⟩
  rcases b with ⟨yb, mb, db⟩
  simp only [validDate, Bool.and_eq_true, decide_eq_true_eq] at ha hb
  simp only [Date.key] at h
  simp only [Date.mk.injEq]
  omega

/-- The serial month of a month-end marker is its serial number. -/
theorem monthIdx_monthEndOfIdx (k : Nat) : monthIdx (monthEndOfIdx k) = k := by
  simp only [monthIdx, monthEndOfIdx, monthEnd]
  omega

/-- Folding `min` never exceeds the initial accumulator. -/
theorem foldl_min_le_init (l : List Nat) : ∀ init : Nat, l.foldl min init ≤ init := by
  induction l with
  | nil => intro init; simp
  | cons x xs ih =>
    intro init
    exact le_trans (ih (min init x)) (min_le_left _ _)

/-- Folding `min` never exceeds a member. -/
theorem foldl_min_le_mem (l : List Nat) (x : Nat) :
    x ∈ l → ∀ init : Nat, l.foldl min init ≤ x := by
  induction l with
  | nil => intro hx; cases hx
  | cons y ys ih =>
    intro hx init
    rcases List.mem_cons.mp hx with h | h
    · subst h
      exact le_trans (foldl_min_le_init ys (min init x)) (min_le_right _ _)
    · exact ih h (min init y)

/-- Folding `max` is at least the initial accumulator. -/
theorem init_le_foldl_max (l : List Nat) : ∀ init : Nat, init ≤ l.foldl max init := by
  induction l with
  | nil => intro init; simp
  | cons x xs ih =>
    intro init
    exact le_trans (le_max_left _ _) (ih (max init x))

/-- Folding `max` is at least any member. -/
theorem mem_le_foldl_max (l : List Nat) (x : Nat) :
    x ∈ l → ∀ init : Nat, x ≤ l.foldl max init := by
  induction l with
  | nil => intro hx; cases hx
  | cons y ys ih =>
    intro hx init
    rcases List.mem_cons.mp hx with h | h
    · subst h
      exact le_trans (le_max_right _ _) (init_le_foldl_max ys (max init x))
    · exact ih h (max init y)

/-- A month present in the index lies inside the resampling span. -/
theorem monthSpan_bounds {s : Series} {a b k : Nat} (h : monthSpan s = some (a, b))
    (hk : k ∈ monthsOf s) : a ≤ k ∧ k ≤ b := by
  cases s with
  | nil => cases hk
  | cons p rest =>
    simp only [monthSpan, Option.some.injEq, Prod.mk.injEq] at h
    obtain ⟨hha, hhb⟩ := h
    subst hha
    subst hhb
    rcases List.mem_cons.mp hk with h | h
    · subst h
      exact ⟨foldl_min_le_init _ _, init_le_foldl_max _ _⟩
    · exact ⟨foldl_min_le_mem _ _ h _, mem_le_foldl_max _ _ h _⟩

/-- Filtering a shifted range for one value. -/
theorem range_filter_shift (n a k : Nat) :
    (List.range n).filter (fun i => a + i == k) =
      if a ≤ k ∧ k < a + n then [k - a] else [] := by
  induction n with
  | zero => simp
  | succ n ih =>
    rw [List.range_succ, List.filter_append, ih]
    by_cases hend : a + n = k
    · have h1 : ¬(a ≤ k ∧ k < a + n) := by omega
      have h2 : a ≤ k ∧ k < a + (n + 1) := by omega
      simp only [if_neg h1, if_pos h2, List.nil_append, List.filter_cons, List.filter_nil]
      have : (a + n == k) = true := by simpa using hend
      simp [this]
      omega
    · have hne : (a + n == k) = false := by simpa using hend
      simp only [List.filter_cons, hne, List.filter_nil]
      by_cases h1 : a ≤ k ∧ k < a + n
      · have h2 : a ≤ k ∧ k < a + (n + 1) := by omega
        simp [if_pos h1, if_pos h2]
      · have h2 : ¬(a ≤ k ∧ k < a + (n + 1)) := by omega
        simp [if_neg h1, if_neg h2]

/-- Forward filling preserves length. -/
theorem ffillFrom_length (l : List (Option ℚ)) : ∀ acc : Option ℚ,
    (ffillFrom acc l).length = l.length := by
  induction l with
  | nil => intro acc; rfl
  | cons x xs ih =>
    intro acc
    cases x with
    | none => simpa [ffillFrom] using ih acc
    | some v => simpa [ffillFrom] using ih (some v)

/-- Forward filling keeps every present entry as it is. -/
theorem ffillFrom_get?_some (l : List (Option ℚ)) : ∀ (acc : Option ℚ) (i : Nat) (a : ℚ),
    l.get? i = some (some a) → (ffillFrom acc l).get? i = some (some a) := by
  induction l with
  | nil => intro acc i a h; cases h
  | cons x xs ih =>
    intro acc i a h
    cases i with
    | zero =>
      simp only [List.get?] at h
      cases h
      simp [ffillFrom]
    | succ i =>
      simp only [List.get?] at h
      cases x with
      | none => simpa [ffillFrom] using ih acc i a h
      | some v => simpa [ffillFrom] using ih (some v) i a h

/-- Date column of the percent-change output. -/
theorem pctChange_map_fst (s : Series) :
    (pctChange12Times100 s).map (fun p => p.1) = s.map (fun p => p.1) := by
  unfold pctChange12Times100
  rw [List.map_map]
  have h1 : (s.enum.map Prod.snd).map (fun p => p.1) = s.map (fun p => p.1) := by
    rw [List.enum_map_snd]
  rw [← h1, List.map_map]
  rfl

/-- Entry of the percent-change output at a position inside the series. -/
theorem pctChange_get? (s : Series) (i : Nat) (p : Date × Option ℚ) (h : s.get? i = some p) :
    (pctChange12Times100 s).get? i =
      some (p.1,
        if i < 12 then none
        else
          match (ffill (s.map (fun q => q.2))).getD (i - 12) none,
              (ffill (s.map (fun q => q.2))).getD i none with
          | some b, some a => some ((a / b - 1) * 100)
          | _, _ => none) := by
  unfold pctChange12Times100
  rw [List.get?_map, List.get?_enum, h]
  rfl

/-- Bool sortedness gives pairwise strict key growth. -/
theorem sortedKeysB_pairwise {α : Type} : ∀ l : List (Date × α), sortedKeysB l = true →
    l.Pairwise (fun x y => x.1.key < y.1.key) := by
  intro l
  induction l with
  | nil => intro _; exact List.Pairwise.nil
  | cons x xs ih =>
    intro h
    cases xs with
    | nil => simp
    | cons y ys =>
      simp only [sortedKeysB, Bool.and_eq_true, decide_eq_true_eq] at h
      have hp := ih (by simpa [sortedKeysB] using h.2)
      refine List.pairwise_cons.mpr ⟨?_, hp⟩
      intro z hz
      rcases List.mem_cons.mp hz with hz | hz
      · subst hz; exact h.1
      · exact lt_trans h.1 (List.rel_of_pairwise_cons hp hz)

/-- Pairwise strict key growth gives Bool sortedness. -/
theorem pairwise_sortedKeysB {α : Type} : ∀ l : List (Date × α),
    l.Pairwise (fun x y => x.1.key < y.1.key) → sortedKeysB l = true := by
  intro l
  induction l with
  | nil => intro _; rfl
  | cons x xs ih =>
    intro h
    cases xs with
    | nil => rfl
    | cons y ys =>
      rcases List.pairwise_cons.mp h with ⟨hx, hp⟩
      simp only [sortedKeysB, Bool.and_eq_true, decide_eq_true_eq]
      exact ⟨hx y (List.mem_cons_self _ _), ih hp⟩

/-- The last element of a list is a member. -/
theorem mem_of_getLast? {α : Type} : ∀ {l : List α} {x : α}, l.getLast? = some x → x ∈ l := by
  intro l
  induction l with
  | nil => intro x h; cases h
  | cons a as ih =>
    intro x h
    cases as with
    | nil =>
      simp only [List.getLast?_singleton, Option.some.injEq] at h
      subst h
      exact List.mem_singleton_self _
    | cons b bs =>
      rw [List.getLast?_cons_cons] at h
      exact List.mem_cons_of_mem _ (ih h)

/-- In a list with strictly growing keys, every member's key is bounded by
the last element's key. -/
theorem key_le_getLast {α : Type} : ∀ (l : List (Date × α)),
    l.Pairwise (fun x y => x.1.key < y.1.key) → ∀ x ∈ l, ∀ y,
    l.getLast? = some y → x.1.key ≤ y.1.key := by
  intro l
  induction l with
  | nil => intro _ x hx; cases hx
  | cons a as ih =>
    intro hp x hx y hy
    cases as with
    | nil =>
      rcases List.mem_singleton.mp hx with rfl
      simp only [List.getLast?_singleton, Option.some.injEq] at hy
      subst hy
      exact le_refl _
    | cons b bs =>
      rw [List.getLast?_cons_cons] at hy
      rcases List.pairwise_cons.mp hp with ⟨ha, hp'⟩
      rcases List.mem_cons.mp hx with rfl | hx
      · have hyb : y ∈ b :: bs := mem_of_getLast? hy
        exact le_of_lt (ha y hyb)
      · exact ih hp' x hx y hy

/-- Members of an insertion come from the inserted date or the old list. -/
theorem mem_of_mem_insertDate {dt x : Date} : ∀ {l : List Date},
    x ∈ insertDate dt l → x = dt ∨ x ∈ l := by
  intro l
  induction l with
  | nil =>
    intro h
    simp only [insertDate] at h
    exact Or.inl (List.mem_singleton.mp h)
  | cons e es ih =>
    intro h
    simp only [insertDate] at h
    by_cases h1 : dt.key < e.key
    · rw [if_pos h1] at h
      rcases List.mem_cons.mp h with rfl | h
      · exact Or.inl rfl
      · exact Or.inr h
    · rw [if_neg h1] at h
      by_cases h2 : dt.key = e.key
      · rw [if_pos h2] at h
        exact Or.inr h
      · rw [if_neg h2] at h
        rcases List.mem_cons.mp h with rfl | h
        · exact Or.inr (List.mem_cons_self _ _)
        · rcases ih h with h | h
          · exact Or.inl h
          · exact Or.inr (List.mem_cons_of_mem _ h)

/-- Insertion keeps every old member. -/
theorem mem_insertDate_of_mem {dt x : Date} : ∀ {l : List Date},
    x ∈ l → x ∈ insertDate dt l := by
  intro l
  induction l with
  | nil => intro h; cases h
  | cons e es ih =>
    intro h
    simp only [insertDate]
    by_cases h1 : dt.key < e.key
    · rw [if_pos h1]
      exact List.mem_cons_of_mem _ h
    · rw [if_neg h1]
      by_cases h2 : dt.key = e.key
      · rw [if_pos h2]
        exact h
      · rw [if_neg h2]
        rcases List.mem_cons.mp h with rfl | h
        · exact List.mem_cons_self _ _
        · exact List.mem_cons_of_mem _ (ih h)

/-- After an insertion some member carries the inserted key. -/
theorem exists_key_insertDate (dt : Date) : ∀ l : List Date,
    ∃ y ∈ insertDate dt l, y.key = dt.key := by
  intro l
  induction l with
  | nil => exact ⟨dt, List.mem_singleton_self _, rfl⟩
  | cons e es ih =>
    simp only [insertDate]
    by_cases h1 : dt.key < e.key
    · rw [if_pos h1]
      exact ⟨dt, List.mem_cons_self _ _, rfl⟩
    · rw [if_neg h1]
      by_cases h2 : dt.key = e.key
      · rw [if_pos h2]
        exact ⟨e, List.mem_cons_self _ _, h2.symm⟩
      · rw [if_neg h2]
        rcases ih with ⟨y, hy, hk⟩
        exact ⟨y, List.mem_cons_of_mem _ hy, hk⟩

/-- Insertion into a strictly sorted list keeps it strictly sorted. -/
theorem pairwise_insertDate (dt : Date) : ∀ l : List Date,
    l.Pairwise (fun x y => x.key < y.key) →
    (insertDate dt l).Pairwise (fun x y => x.key < y.key) := by
  intro l
  induction l with
  | nil =>
    intro _
    simp [insertDate]
  | cons e es ih =>
    intro hp
    rcases List.pairwise_cons.mp hp with ⟨he, hp'⟩
    simp only [insertDate]
    by_cases h1 : dt.key < e.key
    · rw [if_pos h1]
      refine List.pairwise_cons.mpr ⟨?_, hp⟩
      intro z hz
      rcases List.mem_cons.mp hz with rfl | hz
      · exact h1
      · exact lt_trans h1 (he z hz)
    · rw [if_neg h1]
      by_cases h2 : dt.key = e.key
      · rw [if_pos h2]
        exact hp
      · rw [if_neg h2]
        refine List.pairwise_cons.mpr ⟨?_, ih hp'⟩
        intro z hz
        rcases mem_of_mem_insertDate hz with rfl | hz
        · omega
        · exact he z hz

/-- Members of the sorted union come from the input dates. -/
theorem mem_of_mem_sortedUnion {x : Date} : ∀ {ds : List Date},
    x ∈ sortedUnion ds → x ∈ ds := by
  intro ds
  induction ds with
  | nil => intro h; cases h
  | cons d ds ih =>
    intro h
    rcases mem_of_mem_insertDate h with rfl | h
    · exact List.mem_cons_self _ _
    · exact List.mem_cons_of_mem _ (ih h)

/-- Every input date's key survives into the sorted union. -/
theorem exists_key_sortedUnion {d : Date} : ∀ {ds : List Date}, d ∈ ds →
    ∃ y ∈ sortedUnion ds, y.key = d.key := by
  intro ds
  induction ds with
  | nil => intro h; cases h
  | cons e es ih =>
    intro h
    rcases List.mem_cons.mp h with rfl | h
    · exact exists_key_insertDate d (sortedUnion es)
    · rcases ih h with ⟨y, hy, hk⟩
      exact ⟨y, mem_insertDate_of_mem hy, hk⟩

/-- The sorted union is strictly sorted by key. -/
theorem pairwise_sortedUnion : ∀ ds : List Date,
    (sortedUnion ds).Pairwise (fun x y => x.key < y.key) := by
  intro ds
  induction ds with
  | nil => exact List.Pairwise.nil
  | cons d ds ih => exact pairwise_insertDate d _ ih

/-- Claim C3. For every collection of input series, the assembled panel's
row set equals the union of the input dates minus the rows whose columns are
all missing, with no duplicate dates: rows are strictly sorted by key, each
retained row is the aligned row at an input date and keeps at least one
present cell (so a row with one present column survives missing ones), and
every input date whose aligned row has a present cell is retained. -/
theorem panel_assemble_spec (cols : List Series)
    (hv : (allDates cols).all validDate = true) : PanelSpec cols := by
  refine ⟨?_, ?_, ?_⟩
  · apply pairwise_sortedKeysB
    apply List.Pairwise.filter
    exact (pairwise_sortedUnion (allDates cols)).map _ (fun a b hab => hab)
  · intro dt r h
    rcases List.mem_filter.mp h with ⟨hmem, hpred⟩
    rcases List.mem_map.mp hmem with ⟨dt', hdt', heq⟩
    injection heq with h1 h2
    subst h1
    subst h2
    exact ⟨mem_of_mem_sortedUnion hdt', rfl, by simpa using hpred⟩
  · intro dt hdt hany
    rcases exists_key_sortedUnion hdt with ⟨y, hy, hk⟩
    have hvdt : validDate dt = true := List.all_eq_true.mp hv dt hdt
    have hvy : validDate y = true :=
      List.all_eq_true.mp hv y (mem_of_mem_sortedUnion hy)
    have hyd : y = dt := date_key_inj hvy hvdt hk
    subst hyd
    refine List.mem_filter.mpr ⟨List.mem_map_of_mem _ hy, by simpa using hany⟩

/-- Witness for claim C3 at a concrete pair of monthly columns. -/
theorem panel_assemble_spec_witness :
    (allDates samplePanelCols).all validDate = true ∧ PanelSpec samplePanelCols :=
  ⟨by decide, panel_assemble_spec samplePanelCols (by decide)⟩

/-- On a nonempty frame, mode `last` is the `last`-aggregated resample. -/
theorem monthlyize_last_eq (s : Series) (hne : s.isEmpty = false) :
    monthlyize s "last" = resampleWith lastValid s := by
  simp [monthlyize, hne]

/-- Claim C5, amended. For a series sorted ascending by date, every calendar
month present in the input yields exactly one output row, keyed at the
month-end marker, whose value is the chronologically last non-missing
observation of that month (`lastValid` takes the last entry of the month's
non-missing values; it is `none` when the month has only missing values). -/
theorem monthlyize_last_month (s : Series) (hs : sortedKeysB s = true) (k : Nat)
    (hk : k ∈ monthsOf s) :
    (monthlyize s "last").filter (fun p => monthIdx p.1 == k) =
      [(monthEndOfIdx k, lastValid s k)] := by
  have hne : s.isEmpty = false := by
    cases s with
    | nil => cases hk
    | cons p rest => rfl
  rw [monthlyize_last_eq s hne]
  obtain ⟨a, b, hspan⟩ : ∃ a b, monthSpan s = some (a, b) := by
    cases s with
    | nil => cases hk
    | cons p rest => exact ⟨_, _, rfl⟩
  obtain ⟨hak, hkb⟩ := monthSpan_bounds hspan hk
  unfold resampleWith
  rw [hspan, List.filter_map]
  have hcomp :
      ((fun p => monthIdx p.1 == k) ∘ fun i => (monthEndOfIdx (a + i), lastValid s (a + i)))
        = fun i => a + i == k := by
    funext i
    simp [Function.comp, monthIdx_monthEndOfIdx]
  rw [hcomp, range_filter_shift]
  have hcond : a ≤ k ∧ k < a + (b + 1 - a) := by omega
  rw [if_pos hcond]
  have hka : a + (k - a) = k := by omega
  simp [hka]

/-- Witness for the amended claim C5 at a concrete series. -/
theorem monthlyize_last_month_witness :
    sortedKeysB sampleLastInput = true ∧ 24240 ∈ monthsOf sampleLastInput ∧
    (monthlyize sampleLastInput "last").filter (fun p => monthIdx p.1 == 24240) =
      [(monthEndOfIdx 24240, lastValid sampleLastInput 24240)] :=
  ⟨by decide, by decide, monthlyize_last_month sampleLastInput (by decide) 24240 (by decide)⟩

/-- Counterexample to claim C5 as stated: in `sampleLastInput` the
chronologically last observation of January 2020 is missing, yet the code's
monthly value is `5` (pandas `last` skips NaN), not missing. -/
theorem monthlyize_last_counterexample :
    sortedKeysB sampleLastInput = true ∧
    monthlyize sampleLastInput "last" = [(⟨2020, 1, 31⟩, some 5)] ∧
    sampleLastInput.getLast? = some (⟨2020, 1, 20⟩, none) := by
  refine ⟨by decide, ?_, by decide⟩
  decide

/-- On a monthly index of length at least 3 the calculator does not
resample: `pd.infer_freq` reports "M" and the percent change runs on the
input as is. -/
theorem cpi_yoy_monthly_eq (s : Series) (hm : isMonthlySeries s = true)
    (h3 : 3 ≤ s.length) : cpi_yoy_from_index s = .ok (pctChange12Times100 s) := by
  have hne : s.isEmpty = false := by
    cases s with
    | nil => simp at h3
    | cons p rest => rfl
  have hlt : ¬ s.length < 3 := by omega
  have hfreq : inferFreqIsMonthly (s.map (fun p => p.1)) = true := by
    unfold inferFreqIsMonthly
    rw [List.length_map, if_neg hlt]
    unfold isMonthlySeries at hm
    rw [hm, Bool.true_or]
  simp [cpi_yoy_from_index, hne, hlt, hfreq]

/-- Claim C1, amended. For every Monthly Series with at least 3 entries the
year-over-year output keeps the input dates, has its first 12 entries
missing, and at index `i ≥ 12` equals `(f i / f (i-12) - 1) * 100` over the
forward-filled values `f` whenever both are present (else missing); when the
raw entries at `i` and `i-12` are both present this is the plain
`(S i / S (i-12) - 1) * 100`. -/
theorem cpi_yoy_monthly_spec (s : Series) (hm : isMonthlySeries s = true)
    (h3 : 3 ≤ s.length) : YoySpec s := by
  have hlen : (pctChange12Times100 s).length = s.length := by
    have h := congrArg List.length (pctChange_map_fst s)
    simpa using h
  refine ⟨pctChange12Times100 s, cpi_yoy_monthly_eq s hm h3, pctChange_map_fst s, ?_, ?_, ?_⟩
  · intro i hi
    rw [List.getD_eq_get?, List.get?_map]
    cases hsg : s.get? i with
    | none =>
      have hile : s.length ≤ i := List.get?_eq_none.mp hsg
      have hout : (pctChange12Times100 s).get? i = none := by
        apply List.get?_eq_none.mpr
        omega
      rw [hout]
      rfl
    | some p =>
      rw [pctChange_get? s i p hsg]
      simp [hi]
  · intro i h12 hilen
    obtain ⟨p, hsg⟩ : ∃ p, s.get? i = some p := by
      cases hsg : s.get? i with
      | none => exact absurd (List.get?_eq_none.mp hsg) (by omega)
      | some p => exact ⟨p, rfl⟩
    rw [List.getD_eq_get?, List.get?_map, pctChange_get? s i p hsg]
    have h12' : ¬ i < 12 := by omega
    simp [h12']
  · intro i a b h12 ha hb
    rw [List.getD_eq_get?, List.get?_map] at ha hb
    obtain ⟨p, hsg, hpa⟩ : ∃ p, s.get? i = some p ∧ p.2 = some a := by
      cases hsg : s.get? i with
      | none => rw [hsg] at ha; simp at ha
      | some p =>
        rw [hsg] at ha
        simp only [Option.map_some', Option.getD_some] at ha
        exact ⟨p, rfl, ha⟩
    obtain ⟨q, hsg2, hqb⟩ : ∃ q, s.get? (i - 12) = some q ∧ q.2 = some b := by
      cases hsg2 : s.get? (i - 12) with
      | none => rw [hsg2] at hb; simp at hb
      | some q =>
        rw [hsg2] at hb
        simp only [Option.map_some', Option.getD_some] at hb
        exact ⟨q, rfl, hb⟩
    have hfa : (ffill (s.map (fun r => r.2))).get? i = some (some a) := by
      apply ffillFrom_get?_some
      rw [List.get?_map, hsg]
      simp [hpa]
    have hfb : (ffill (s.map (fun r => r.2))).get? (i - 12) = some (some b) := by
      apply ffillFrom_get?_some
      rw [List.get?_map, hsg2]
      simp [hqb]
    rw [List.getD_eq_get?, List.get?_map, pctChange_get? s i p hsg]
    have h12' : ¬ i < 12 := by omega
    simp only [h12', if_false, List.getD_eq_get?, hfa, hfb, Option.map_some', Option.getD_some]

/-- Witness for the amended claim C1 at a concrete 14-month series. -/
theorem cpi_yoy_monthly_spec_witness :
    isMonthlySeries sampleYoyInput = true ∧ 3 ≤ sampleYoyInput.length ∧
    YoySpec sampleYoyInput :=
  ⟨by decide, by decide, cpi_yoy_monthly_spec sampleYoyInput (by decide) (by decide)⟩

/-- Counterexample to claim C1 as stated: `sampleYoyInput` is a Monthly
Series whose entry at index 1 is missing, so the claim requires the output at
index 13 to be missing; the code forward-fills (pct_change's default
`fill_method="pad"`) and produces a present value there (namely
`(113/100 - 1) * 100`, computed against the filled entry). -/
theorem cpi_yoy_counterexample :
    isMonthlySeries sampleYoyInput = true ∧
    (sampleYoyInput.map (fun p => p.2)).getD 1 none = none ∧
    (cpi_yoy_from_index sampleYoyInput).toOption.map
      (fun out => ((out.map (fun p => p.2)).getD 13 none).isSome) = some true := by
  refine ⟨by decide, by decide, ?_⟩
  decide

/-- Claim C4. On a date-sorted panel whose last fully present row is
`(dt, r)`, the KPI row takes its three metrics from exactly that row — the
latest row of the panel in which every column is present — and renders each
through `metric_card`: a value becomes its two-decimal rendering plus the
percent suffix, a missing value becomes the dash placeholder. -/
theorem kpi_from_latest_full_row (p : Panel) (hp : sortedKeysB p = true)
    (dt : Date) (r : List (Option ℚ)) (h : latestFull p = some (dt, r)) :
    (dt, r) ∈ p ∧ rowFull r = true ∧
    (∀ x ∈ p, rowFull x.2 = true → x.1.key ≤ dt.key) ∧
    kpiRow p = some (metric_card (r.getD 1 none) " %", metric_card (r.getD 2 none) " %",
      metric_card (r.getD 3 none) " %") ∧
    (∀ (q : ℚ) (suf : String), metric_card (some q) suf = fmt2 q ++ suf) ∧
    (∀ suf : String, metric_card none suf = "-") ∧
    (∀ q : ℚ, ∃ intPart fracPart, fmt2 q = intPart ++ "." ++ fracPart ∧
      fracPart.length = 2) := by
  have hmem : (dt, r) ∈ dropnaAny p := mem_of_getLast? h
  rcases List.mem_filter.mp hmem with ⟨hmp, hfull⟩
  refine ⟨hmp, hfull, ?_, ?_, fun q suf => rfl, fun suf => rfl, ?_⟩
  · intro x hx hxf
    have hxd : x ∈ dropnaAny p := List.mem_filter.mpr ⟨hx, hxf⟩
    have hpair : (dropnaAny p).Pairwise (fun a b => a.1.key < b.1.key) :=
      (sortedKeysB_pairwise p hp).filter _
    exact key_le_getLast (dropnaAny p) hpair x hxd (dt, r) h
  · unfold kpiRow
    rw [h]
  · intro q
    exact ⟨(if roundHalfEven (q * 100) < 0 then "-" else "") ++
      groupDigits (toString ((roundHalfEven (q * 100)).natAbs / 100)),
      twoDigits ((roundHalfEven (q * 100)).natAbs % 100), rfl, rfl⟩

/-- Witness for claim C4 at a concrete panel: the KPI cards come from the
first row, the latest one with every column present. -/
theorem kpi_from_latest_full_row_witness :
    kpiRow sampleKpiPanel = some (metric_card (some 2) " %", metric_card (some 3) " %",
      metric_card (some 4) " %") :=
  (kpi_from_latest_full_row sampleKpiPanel (by decide) (monthEnd 2020 1)
    [some 1, some 2, some 3, some 4] (by decide)).2.2.2.1

/-- A cell of the smoothed panel inside the frame is the trailing 3-row
window value of the same cell. -/
theorem cellAt_smoothPanel (p : Panel) (i j : Nat) (dt : Date) (r : List (Option ℚ))
    (hrow : p.get? i = some (dt, r)) (hj : j < r.length) :
    cellAt (smoothPanel p) i j = rolling3At p i j := by
  unfold cellAt smoothPanel
  rw [List.get?_map, List.get?_enum, hrow]
  simp only [Option.map_some']
  rw [List.getD_eq_get?, List.get?_map]
  have hr : (List.range r.length).get? j = some j := by
    rw [List.get?_eq_getElem?, List.getElem?_range hj]
  rw [hr]
  rfl

/-- Claim C6. The display transform with the flag off returns the panel
unchanged; with the flag on each column independently becomes its trailing
3-row arithmetic mean, so a cell in the first 2 rows is missing and a cell
whose 3-row window is fully present is the window mean; on the concrete
one-column panel 1, 2, 3, 4, 5 the output column is missing, missing,
2, 3, 4. -/
theorem display_transform_spec :
    (∀ p : Panel, displayOf p false = p) ∧
    (∀ (p : Panel) (i j : Nat) (dt : Date) (r : List (Option ℚ)),
      p.get? i = some (dt, r) → j < r.length →
        (i < 2 → cellAt (displayOf p true) i j = none) ∧
        (∀ a b c : ℚ, 2 ≤ i → cellAt p (i - 2) j = some a → cellAt p (i - 1) j = some b →
          cellAt p i j = some c →
          cellAt (displayOf p true) i j = some ((a + b + c) / 3))) ∧
    displayOf sampleSmoothInput true = sampleSmoothOutput := by
  refine ⟨fun p => rfl, ?_, ?_⟩
  · intro p i j dt r hrow hj
    constructor
    · intro hi2
      rw [show displayOf p true = smoothPanel p from rfl,
        cellAt_smoothPanel p i j dt r hrow hj]
      unfold rolling3At
      rw [if_pos hi2]
    · intro a b c h2 ha hb hc
      rw [show displayOf p true = smoothPanel p from rfl,
        cellAt_smoothPanel p i j dt r hrow hj]
      unfold rolling3At
      rw [if_neg (by omega), ha, hb, hc]
  · rw [show displayOf sampleSmoothInput true = smoothPanel sampleSmoothInput from rfl]
    norm_num [smoothPanel, sampleSmoothInput, sampleSmoothOutput, rolling3At, cellAt,
      List.enum, List.enumFrom, show List.range 1 = [0] from rfl, List.getD]

/-- Witness for claim C6: the concrete smoothing instance extracted from the
claim's theorem. -/
theorem display_transform_spec_witness :
    displayOf sampleSmoothInput true = sampleSmoothOutput :=
  display_transform_spec.2.2

/-- Claim C10. When smoothing is applied, a cell at row `i ≥ 2` is missing
whenever any of the three trailing cells (rows `i-2`, `i-1`, `i`) of the same
column is missing — a missing value anywhere in a column blanks every
smoothed cell whose window contains it. -/
theorem smooth_missing_window (p : Panel) (i j : Nat) (dt : Date) (r : List (Option ℚ))
    (hrow : p.get? i = some (dt, r)) (hj : j < r.length) (h2 : 2 ≤ i)
    (hmiss : cellAt p (i - 2) j = none ∨ cellAt p (i - 1) j = none ∨ cellAt p i j = none) :
    cellAt (smoothPanel p) i j = none := by
  rw [cellAt_smoothPanel p i j dt r hrow hj]
  unfold rolling3At
  rw [if_neg (by omega)]
  rcases hmiss with h | h | h
  · rw [h]
  · rw [h]
    cases cellAt p (i - 2) j <;> rfl
  · rw [h]
    cases cellAt p (i - 2) j <;> cases cellAt p (i - 1) j <;> rfl

/-- Witness for claim C10: the missing value at row 3 of `sampleGapInput`
blanks the smoothed cell at row 3 (its window rows are 1, 2, 3). -/
theorem smooth_missing_window_witness :
    cellAt (smoothPanel sampleGapInput) 3 0 = none :=
  smooth_missing_window sampleGapInput 3 0 (monthEnd 2020 4) [none] (by decide) (by decide)
    (by decide) (Or.inr (Or.inr (by decide)))

/-- Claim C7. For every credential, fetch outcome and smoothing flag, the
render's export sheets coincide with those of the run with smoothing off,
the canonical panel is the same either way, and whenever a render exists its
export is exactly the four sheets built from the canonical (unsmoothed)
panel and the three monthly series. -/
theorem export_unaffected_by_smoothing (apiKey : String) (raw : RawData) (b : Bool) :
    (runApp apiKey raw b).render.map (fun r => r.exportSheets) =
      (runApp apiKey raw false).render.map (fun r => r.exportSheets) ∧
    (runApp apiKey raw b).render.map (fun r => r.panel) =
      (runApp apiKey raw false).render.map (fun r => r.panel) ∧
    (∀ r, (runApp apiKey raw b).render = some r →
      r.exportSheets =
        [("macro_panel", r.panel),
         ("cpi_index", toSheet (monthlyize (fetch_fred raw.cpiObs) "last")),
         ("unemployment", toSheet (monthlyize (fetch_fred raw.unrateObs) "last")),
         ("real10y", toSheet (monthlyize (fetch_fred raw.real10Obs) "mean"))]) := by
  by_cases hk : apiKey = ""
  · simp [runApp, hk]
  · simp only [runApp, if_neg hk]
    cases hyoy : cpi_yoy_from_index (fetch_fred raw.cpiObs) with
    | error e =>
      simp [hyoy]
    | ok yoy =>
      simp only [hyoy]
      refine ⟨rfl, rfl, ?_⟩
      intro r hr
      simp only [Option.some.injEq] at hr
      rw [← hr]

/-- Witness for claim C7 at a concrete render pass with smoothing on. -/
theorem export_unaffected_by_smoothing_witness :
    (runApp "key" sampleAppRaw true).render.map (fun r => r.exportSheets) =
      (runApp "key" sampleAppRaw false).render.map (fun r => r.exportSheets) :=
  (export_unaffected_by_smoothing "key" sampleAppRaw true).1

/-- Claim C8. With the credential absent (the secret store default is the
empty string and Python's `if not api_key` treats it as missing), the run
halts with the instructional warning before anything else: no network call
is made and nothing is rendered, for every fetch payload and flag value. -/
theorem missing_credential_halts (raw : RawData) (b : Bool) :
    runApp "" raw b =
      { halted := true, warning := some missingKeyMessage, crashed := false,
        networkCalls := [], render := none } := rfl

/-- Claim C9. An empty input is never an error: an empty observation payload
parses to the empty frame, the frequency normalizer maps the empty frame to
itself in every mode, and the year-over-year calculator maps the empty frame
to an empty output rather than an error. -/
theorem empty_input_propagates :
    fetch_fred [] = [] ∧ (∀ how : String, monthlyize [] how = []) ∧
    cpi_yoy_from_index [] = .ok [] := by
  exact ⟨rfl, fun how => rfl, rfl⟩

/-- Claim C2 fails on the code. With the CPI fetch dated at month starts —
the dating FRED uses for monthly series — `pd.infer_freq` reports "MS", so
`cpi_yoy_from_index` skips resampling and the YoY series keeps month-start
keys while every other series is keyed at month ends; the assembled panel
then gives January 2001 two rows, 2001-01-01 (carrying only the YoY column)
and 2001-01-31 (carrying only the CPI column), and no panel row is ever
fully present, so the KPI branch sees no data. -/
theorem panel_month_duplicated :
    (runApp "key" monthStartRaw false).render.map
      (fun r => (r.panel.map (fun p => p.1)).filter (fun dt => monthIdx dt == 24012)) =
      some [⟨2001, 1, 1⟩, ⟨2001, 1, 31⟩] ∧
    (runApp "key" monthStartRaw false).render.map (fun r => r.kpi) = some none := by
  refine ⟨?_, ?_⟩ <;> decide
